import Mathlib

/-!
A shallow embedding of the simplers optimizer core (`src/src/algorithm.rs`).

Float values (`ValueFloat`) and coordinates (`CoordFloat`) are embedded as
rationals.  Operations that can panic in Rust (`expect`, `unwrap`, slice
indexing) return `Option`, with `none` modelling the panic.

The repository ships only `algorithm.rs`; the `Point`, `Simplex` and
`SearchSpace` modules it uses are missing from the sources, so those parts
are modelled from the spec (each such definition is marked
`Modelled from the spec:` in its doc comment).  The simplex scoring function
`Simplex::evaluate` — whose exact closed form the spec leaves as a design
parameter — is threaded through the optimizer operations as an explicit
function argument `ev : Simplex → ℚ → ℚ`.
-/

namespace Simplers

/-- A `Point`: immutable (coordinates, value) record, as in the data model. -/
structure Point where
  coordinates : List ℚ
  value : ℚ
deriving DecidableEq, Repr

/-- Modelled from the spec: the centroid is the arithmetic mean of a list of
coordinate vectors (spec glossary). -/
def centroid (cs : List (List ℚ)) : List ℚ :=
  match cs with
  | [] => []
  | c :: rest =>
    (rest.foldl (fun acc x => List.zipWith (fun a b => a + b) acc x) c).map
      (fun v => v / (cs.length : ℚ))

/-- A `Simplex`: d+1 corner points, a precomputed `center`, and the cached
global value-range `difference` that was in effect when its score was last
computed (`algorithm.rs` reads and writes the field `difference`). -/
structure Simplex where
  corners : List Point
  center : List ℚ
  difference : ℚ
deriving DecidableEq, Repr

/-- The search-space mapper: the per-dimension (lower, upper) bounds. -/
structure SearchSpace where
  bounds : List (ℚ × ℚ)
deriving DecidableEq, Repr

/-- Modelled from the spec: `SearchSpace::to_hypercube` (the spec's
`to_domain`) is the affine per-dimension map sending the internal origin to
the lower bound and the unit offset to the upper bound (spec 4.1). -/
def SearchSpace.to_hypercube (ss : SearchSpace) (c : List ℚ) : List ℚ :=
  List.zipWith (fun b x => b.1 + x * (b.2 - b.1)) ss.bounds c

/-- Internal coordinates of corner `i` of the canonical initial simplex in
dimension `d`: corner 0 is the origin, corner `j+1` is the unit offset along
axis `j` (spec 4.1). -/
def cornerCoords (d i : ℕ) : List ℚ :=
  (List.range d).map (fun j => if i = j + 1 then 1 else 0)

/-- Modelled from the spec: `Simplex::initial_simplex` builds the canonical
starting simplex — one corner at the internal origin and one corner per
dimension offset along that axis (spec 4.1).  The spec does not specify the
value carried by a not-yet-evaluated corner; it is modelled as 0 (matching
the initial `min_value = 0` in `Optimizer::new`).  The cached range starts
at 0. -/
def Simplex.initial_simplex (ss : SearchSpace) : Simplex :=
  let d := ss.bounds.length
  let corners := (List.range (d + 1)).map (fun i => Point.mk (cornerCoords d i) 0)
  { corners := corners,
    center := centroid (corners.map Point.coordinates),
    difference := 0 }

/-- Modelled from the spec: `Simplex::split` produces exactly d+1 children,
child `i` replacing corner `i` with the freshly evaluated centroid point and
keeping the remaining corners; each child is stamped with
`difference = current_range` at creation (spec 4.3). -/
def Simplex.split (s : Simplex) (p : Point) (range : ℚ) : List Simplex :=
  (List.range s.corners.length).map (fun i =>
    let cs := s.corners.set i p
    { corners := cs, center := centroid (cs.map Point.coordinates), difference := range })

/-- The priority queue is a list of (simplex, priority) pairs; `pop` removes
the earliest entry of maximal priority (deterministic, insertion-stable
tie-break), returning `none` on an empty queue. -/
def popMax : List (Simplex × ℚ) → Option ((Simplex × ℚ) × List (Simplex × ℚ))
  | [] => none
  | x :: xs =>
    match popMax xs with
    | none => some (x, [])
    | some (m, rest) => if m.2 ≤ x.2 then some (x, xs) else some (m, x :: rest)

/-- `ValueFloat::max_value()` for `f64`: the largest finite double,
`(2 - 2⁻⁵²)·2¹⁰²³`, embedded exactly as a rational. -/
def floatMaxValue : ℚ := ((2 ^ 1024 - 2 ^ 971 : ℕ) : ℚ)

/-- `ValueFloat::min_value()` for `f64`: the smallest finite double. -/
def floatMinValue : ℚ := -floatMaxValue

/-- The `cleaned_evaluation` expression computed (line 233 of
`algorithm.rs`) in the lazy-rescoring loop: the raw estimate capped to the
best observed value when it reaches the largest finite float, floored to the
minimal observed value when it reaches the smallest finite float. -/
def cleanedEvaluation (new_evaluation best_value min_value : ℚ) : ℚ :=
  if floatMaxValue ≤ new_evaluation then best_value
  else if new_evaluation ≤ floatMinValue then min_value
  else new_evaluation

/-- The optimizer state (`struct Optimizer` in `algorithm.rs`). -/
structure Optimizer where
  exploration_depth : ℚ
  minimize : Bool
  search_space : SearchSpace
  best_point : Point
  min_value : ℚ
  in_progress_simplex : Option (ℕ × Simplex)
  current_simplex : Option Simplex
  current_difference : Option ℚ
  queue : List (Simplex × ℚ)
deriving DecidableEq, Repr

/-- `Optimizer::new` (`algorithm.rs` 55–78). -/
def Optimizer.new (input_interval : List (ℚ × ℚ)) (should_minimize : Bool) :
    Optimizer :=
  let search_space : SearchSpace := ⟨input_interval⟩
  let initial_simplex := Simplex.initial_simplex search_space
  { exploration_depth := 6,
    minimize := should_minimize,
    search_space := search_space,
    best_point := initial_simplex.corners.getD 0 ⟨[], 0⟩,
    min_value := 0,
    in_progress_simplex := some (0, initial_simplex),
    current_simplex := none,
    current_difference := none,
    queue := [] }

/-- Rust's `Iterator::max_by_key` on corner values: returns the LAST corner
of maximal value, `none` on an empty list. -/
def maxByValue (l : List Point) : Option Point :=
  l.foldl (fun acc c =>
    match acc with
    | none => some c
    | some b => if b.value ≤ c.value then some c else some b) none

/-- Rust's `Iterator::min_by_key` on corner values: returns the FIRST corner
of minimal value, `none` on an empty list. -/
def minByValue (l : List Point) : Option Point :=
  l.foldl (fun acc c =>
    match acc with
    | none => some c
    | some b => if c.value < b.value then some c else some b) none

/-- `Optimizer::finalize_initial_simplex` (`algorithm.rs` 84–104): scan the
corners for the maximal-value corner (→ `best_point`) and minimal value
(→ `min_value`), push the completed simplex with priority 0, clear the
bootstrap state.  `none` models the `expect` panic on an empty corner
list. -/
def Optimizer.finalize_initial_simplex (s : Optimizer) : Option Optimizer :=
  match s.in_progress_simplex with
  | none => some { s with in_progress_simplex := none }
  | some (_, sx) =>
    match maxByValue sx.corners, minByValue sx.corners with
    | some bp, some mv =>
      some { s with
        queue := s.queue ++ [(sx, 0)],
        min_value := mv.value,
        best_point := bp,
        in_progress_simplex := none }
    | _, _ => none

/-- `Optimizer::step_in_progress_simplex` (`algorithm.rs` 106–120): record
the reported value into corner `dim`, advance the pointer; if corners
remain, return the next corner's coordinates, otherwise finalize.  `none`
models the out-of-range indexing panic. -/
def Optimizer.step_in_progress_simplex (s : Optimizer) (value : ℚ) :
    Option (Option (List ℚ) × Optimizer) :=
  match s.in_progress_simplex with
  | none => (s.finalize_initial_simplex).map (fun s2 => (none, s2))
  | some (dim, sx) =>
    match sx.corners.get? dim with
    | none => none
    | some corner =>
      let sx2 := { sx with corners := sx.corners.set dim ⟨corner.coordinates, value⟩ }
      let dim2 := dim + 1
      if dim2 < sx2.corners.length then
        match sx2.corners.get? dim2 with
        | none => none
        | some c2 =>
          some (some c2.coordinates, { s with in_progress_simplex := some (dim2, sx2) })
      else
        (Optimizer.finalize_initial_simplex
            { s with in_progress_simplex := some (dim2, sx2) }).map
          (fun s2 => (none, s2))

set_option linter.unusedVariables false in
/-- The lazy-rescoring loop of `next_explore_point` (`algorithm.rs`
229–244), with the fuel counting the remaining allowed iterations
(`max_iter - n_iter`); the result carries the number of iterations actually
performed.  As in the source, the loop restamps the popped simplex with the
live range, computes `new_evaluation` and the (unused) `cleaned_evaluation`,
and pushes the simplex back with priority `new_evaluation` before popping
again. -/
def rescoreLoop (ev : Simplex → ℚ → ℚ) (depth best_value min_value cd : ℚ) :
    ℕ → Simplex → List (Simplex × ℚ) → Option (Simplex × List (Simplex × ℚ) × ℕ)
  | 0, sx, q => some (sx, q, 0)
  | fuel + 1, sx, q =>
    if sx.difference = cd then some (sx, q, 0)
    else
      let sx2 := { sx with difference := cd }
      let new_evaluation := ev sx2 depth
      let cleaned_evaluation := cleanedEvaluation new_evaluation best_value min_value
      match popMax (q ++ [(sx2, new_evaluation)]) with
      | none => none
      | some (top, q2) =>
        (rescoreLoop ev depth best_value min_value cd fuel top.1 q2).map
          (fun r => (r.1, r.2.1, r.2.2 + 1))

/-- `Optimizer::next_explore_point` (`algorithm.rs` 216–250).  During
bootstrap it returns the pending corner's coordinates without touching the
state; in steady state it pops the queue, runs the lazy-rescoring loop, and
records the obtained simplex and range snapshot.  `none` models the
empty-queue `expect` panics. -/
def Optimizer.next_explore_point (ev : Simplex → ℚ → ℚ) (s : Optimizer) :
    Option (List ℚ × Optimizer) :=
  match s.in_progress_simplex with
  | some (dim, sx) =>
    match sx.corners.get? dim with
    | none => none
    | some c => some (c.coordinates, s)
  | none =>
    match popMax s.queue with
    | none => none
    | some (top, q1) =>
      let current_difference := s.best_point.value - s.min_value
      match rescoreLoop ev s.exploration_depth s.best_point.value s.min_value
          current_difference q1.length top.1 q1 with
      | none => none
      | some (sx2, q2, _) =>
        some (s.search_space.to_hypercube sx2.center,
          { s with
            queue := q2,
            current_simplex := some sx2,
            current_difference := some current_difference })

/-- The tail of `next_with_value` after a pending simplex has been obtained
(`algorithm.rs` 270–301): consume the pending simplex and range snapshot,
build the new point from its center, split, score and enqueue the children,
update `best_point` / `min_value`, and return the signed best value with the
best coordinates mapped to the domain. -/
def Optimizer.report_on_simplex (ev : Simplex → ℚ → ℚ) (value : ℚ)
    (simplex : Simplex) (s1 : Optimizer) : Option ((ℚ × List ℚ) × Optimizer) :=
  match s1.current_difference with
  | none => none
  | some current_difference =>
    let s2 := { s1 with current_simplex := none, current_difference := none }
    let coordinates := simplex.center
    let new_point : Point := ⟨coordinates, value⟩
    let children := (simplex.split new_point current_difference).map
      (fun c => (c, ev c s2.exploration_depth))
    let s3 := { s2 with queue := s2.queue ++ children }
    let s4 :=
      if s3.best_point.value < value then { s3 with best_point := new_point }
      else if value < s3.min_value then { s3 with min_value := value }
      else s3
    let best_value := if s4.minimize then -s4.best_point.value else s4.best_point.value
    let best_coordinate := s4.search_space.to_hypercube s4.best_point.coordinates
    some ((best_value, best_coordinate), s4)

/-- `Optimizer::next_with_value` (`algorithm.rs` 253–302).  During bootstrap
it records the value into the pending corner and returns the raw internal
best; in steady state it reports the value for the pending simplex,
materializing a suggestion first when none is pending. -/
def Optimizer.next_with_value (ev : Simplex → ℚ → ℚ) (s : Optimizer)
    (value : ℚ) : Option ((ℚ × List ℚ) × Optimizer) :=
  match s.in_progress_simplex with
  | some _ =>
    (s.step_in_progress_simplex value).map
      (fun r => ((r.2.best_point.value, r.2.best_point.coordinates), r.2))
  | none =>
    match s.current_simplex with
    | some sx => Optimizer.report_on_simplex ev value sx s
    | none =>
      match s.next_explore_point ev with
      | none => none
      | some (_, s1) =>
        match s1.current_simplex with
        | none => none
        | some sx => Optimizer.report_on_simplex ev value sx s1

/-- A call of the public suggest/report protocol. -/
inductive Call where
  | suggest
  | report (v : ℚ)
deriving DecidableEq, Repr

/-- Run a finite sequence of protocol calls; `none` models a panic in any
call. -/
def runCalls (ev : Simplex → ℚ → ℚ) (s : Optimizer) : List Call → Option Optimizer
  | [] => some s
  | Call.suggest :: rest =>
    (s.next_explore_point ev).bind (fun r => runCalls ev r.2 rest)
  | Call.report v :: rest =>
    (s.next_with_value ev v).bind (fun r => runCalls ev r.2 rest)

/-- Run the bootstrap protocol: for each value, first ask for a suggestion,
then report the value; collects the suggestions. -/
def bootstrapRun (ev : Simplex → ℚ → ℚ) (s : Optimizer) :
    List ℚ → Option (List (List ℚ) × Optimizer)
  | [] => some ([], s)
  | v :: vs =>
    (s.next_explore_point ev).bind (fun r1 =>
      (r1.2.next_with_value ev v).bind (fun r2 =>
        (bootstrapRun ev r2.2 vs).map (fun r3 => (r1.1 :: r3.1, r3.2))))

/-- The discipline of the suggest/report protocol: a call sequence is
disciplined from a state when `next_explore_point` is never invoked while a
suggestion is already pending (`current_simplex` set).  Executable, so a
concrete sequence can be checked by evaluation. -/
def noPendingSuggestB (ev : Simplex → ℚ → ℚ) : Optimizer → List Call → Bool
  | _, [] => true
  | s, Call.suggest :: rest =>
    s.current_simplex.isNone &&
      (match s.next_explore_point ev with
       | none => true
       | some r => noPendingSuggestB ev r.2 rest)
  | s, Call.report v :: rest =>
    match s.next_with_value ev v with
    | none => true
    | some r => noPendingSuggestB ev r.2 rest

/-- The state invariant maintained by every disciplined call: all queued
simplices have corners; the optimizer is either bootstrapping (pointer in
range, no pending suggestion), or steady with no pending suggestion and a
non-empty queue, or steady with a pending suggestion that has corners and a
recorded range snapshot. -/
def QueueInv (s : Optimizer) : Prop :=
  (∀ e ∈ s.queue, e.1.corners ≠ []) ∧
  ((∃ dim sx, s.in_progress_simplex = some (dim, sx)
      ∧ dim < sx.corners.length ∧ s.current_simplex = none)
   ∨ (s.in_progress_simplex = none ∧ s.current_simplex = none ∧ s.queue ≠ [])
   ∨ (s.in_progress_simplex = none ∧ ∃ sx cd, s.current_simplex = some sx
        ∧ sx.corners ≠ [] ∧ s.current_difference = some cd))

/-- A trivial scoring function, used to instantiate concrete runs. -/
def evZero : Simplex → ℚ → ℚ := fun _ _ => 0

/-- A concrete fully-evaluated simplex sitting in the queue (fresh: its
cached range equals the live range 3 of the states below). -/
def sxQueued : Simplex := ⟨[⟨[2], 0⟩, ⟨[3], 3⟩], [5/2], 3⟩

/-- A concrete pending simplex (recorded by a previous suggestion). -/
def sxPending : Simplex := ⟨[⟨[0], 0⟩, ⟨[1], 3⟩], [1/2], 3⟩

/-- A concrete steady-state optimizer with no pending suggestion. -/
def stateR : Optimizer :=
  { exploration_depth := 6, minimize := true, search_space := ⟨[(0, 2)]⟩,
    best_point := ⟨[1], 3⟩, min_value := 0,
    in_progress_simplex := none, current_simplex := none,
    current_difference := none, queue := [(sxQueued, 0)] }

/-- `stateR` with a pending suggestion recorded. -/
def stateS : Optimizer :=
  { stateR with current_simplex := some sxPending, current_difference := some 3 }

/-- The state produced by reporting value 2 in `stateS`. -/
def stateS2 : Optimizer :=
  { stateR with
    queue := [(sxQueued, 0),
      (⟨[⟨[1/2], 2⟩, ⟨[1], 3⟩], [3/4], 3⟩, 0),
      (⟨[⟨[0], 0⟩, ⟨[1/2], 2⟩], [1/4], 3⟩, 0)] }

/-- A concrete bootstrap state of a 1-dimensional search, one corner already
evaluated (value 5), about to receive the last corner's value. -/
def stateB : Optimizer :=
  { exploration_depth := 6, minimize := false, search_space := ⟨[(0, 1)]⟩,
    best_point := ⟨[0], 0⟩, min_value := 0,
    in_progress_simplex := some (1, ⟨[⟨[0], 5⟩, ⟨[1], 0⟩], [1/2], 0⟩),
    current_simplex := none, current_difference := none, queue := [] }

/-- The state produced by reporting value 7 in `stateB`: the bootstrap
finalizes. -/
def stateB2 : Optimizer :=
  { exploration_depth := 6, minimize := false, search_space := ⟨[(0, 1)]⟩,
    best_point := ⟨[1], 7⟩, min_value := 5,
    in_progress_simplex := none, current_simplex := none,
    current_difference := none,
    queue := [(⟨[⟨[0], 5⟩, ⟨[1], 7⟩], [1/2], 0⟩, 0)] }

/-- A stale simplex whose rescoring overflows: its raw score under `evC1`
reaches twice the largest finite float. -/
def simplexA : Simplex := ⟨[⟨[0], 0⟩, ⟨[1], 1⟩], [1/2], 0⟩

/-- A fresh simplex stored at a huge priority, so that it is popped right
after `simplexA` is rescored and pushed back. -/
def simplexB : Simplex := ⟨[⟨[2], 0⟩, ⟨[3], 1⟩], [5/2], 1⟩

/-- A steady-state optimizer whose queue holds the stale `simplexA` on top
and the fresh `simplexB` below it; the live range is 1 - 0 = 1. -/
def stateC1 : Optimizer :=
  { exploration_depth := 6, minimize := false, search_space := ⟨[(0, 1)]⟩,
    best_point := ⟨[1], 1⟩, min_value := 0,
    in_progress_simplex := none, current_simplex := none,
    current_difference := none,
    queue := [(simplexA, 4 * floatMaxValue), (simplexB, 3 * floatMaxValue)] }

/-- A scoring function whose estimate for `simplexA` (center [1/2]) is
numerically unstable: it reaches `2 * floatMaxValue`. -/
def evC1 : Simplex → ℚ → ℚ :=
  fun sx _ => if sx.center = [1/2] then 2 * floatMaxValue else 0

/-- Two successive suggestion calls with no intervening report, returning
both coordinate vectors. -/
def twoSuggests (ev : Simplex → ℚ → ℚ) (s : Optimizer) :
    Option (List ℚ × List ℚ) :=
  (s.next_explore_point ev).bind (fun r1 =>
    (r1.2.next_explore_point ev).map (fun r2 => (r1.1, r2.1)))

/-! ## Helper lemmas about the queue and the rescoring loop -/

theorem popMax_eq_none_iff (l : List (Simplex × ℚ)) : popMax l = none ↔ l = [] := by
  induction l with
  | nil => simp [popMax]
  | cons x xs ih =>
    simp only [popMax]
    rcases h : popMax xs with _ | ⟨a, b⟩
    · simp
    · simp only []
      split <;> simp

theorem popMax_length (l : List (Simplex × ℚ)) :
    ∀ m rest, popMax l = some (m, rest) → rest.length + 1 = l.length := by
  induction l with
  | nil => intro m rest h; simp [popMax] at h
  | cons x xs ih =>
    intro m rest h
    simp only [popMax] at h
    cases h2 : popMax xs with
    | none =>
      rw [h2] at h
      simp only [Option.some.injEq, Prod.mk.injEq] at h
      have hxs : xs = [] := (popMax_eq_none_iff xs).mp h2
      subst hxs
      simp [← h.2]
    | some p =>
      obtain ⟨pm, prest⟩ := p
      rw [h2] at h
      simp only at h
      split at h <;>
        simp only [Option.some.injEq, Prod.mk.injEq] at h <;>
        obtain ⟨h3, h4⟩ := h
      · subst h4; rfl
      · subst h4
        have := ih pm prest h2
        simp only [List.length_cons]
        omega

theorem rescoreLoop_some (ev : Simplex → ℚ → ℚ) (depth best_value min_value cd : ℚ) :
    ∀ (fuel : ℕ) (sx : Simplex) (q : List (Simplex × ℚ)),
    ∃ sx2 q2 n,
      rescoreLoop ev depth best_value min_value cd fuel sx q = some (sx2, q2, n)
      ∧ n ≤ fuel := by
  intro fuel
  induction fuel with
  | zero => intro sx q; exact ⟨sx, q, 0, rfl, Nat.le_refl 0⟩
  | succ fuel ih =>
    intro sx q
    by_cases hd : sx.difference = cd
    · exact ⟨sx, q, 0, by simp [rescoreLoop, hd], Nat.zero_le _⟩
    · cases hp : popMax (q ++ [({ sx with difference := cd },
          ev { sx with difference := cd } depth)]) with
      | none =>
        exact absurd ((popMax_eq_none_iff _).mp hp) (by simp)
      | some p =>
        obtain ⟨top, q2⟩ := p
        obtain ⟨sx2, q3, n, hrec, hn⟩ := ih top.1 q2
        refine ⟨sx2, q3, n + 1, ?_, by omega⟩
        simp only [rescoreLoop, hd, if_false, hp, hrec, Option.map_some']

/-- Shape of a successful steady-state `next_explore_point`: only the queue,
the pending simplex and the range snapshot change, and the returned
coordinates are the domain image of the obtained simplex's center. -/
theorem next_explore_point_shape (ev : Simplex → ℚ → ℚ) (s : Optimizer)
    (c : List ℚ) (s1 : Optimizer)
    (h : s.in_progress_simplex = none)
    (he : s.next_explore_point ev = some (c, s1)) :
    ∃ sx2 q2,
      s1 = { s with
             queue := q2
             current_simplex := some sx2
             current_difference := some (s.best_point.value - s.min_value) }
      ∧ c = s.search_space.to_hypercube sx2.center := by
  unfold Optimizer.next_explore_point at he
  rw [h] at he
  rcases hp : popMax s.queue with _ | ⟨top, q1⟩
  · rw [hp] at he; simp at he
  · rw [hp] at he
    simp only [] at he
    rcases hr : rescoreLoop ev s.exploration_depth s.best_point.value s.min_value
        (s.best_point.value - s.min_value) q1.length top.1 q1 with _ | ⟨sx2, q2, n⟩
    · rw [hr] at he; simp at he
    · rw [hr] at he
      simp only [Option.some.injEq, Prod.mk.injEq] at he
      refine ⟨sx2, q2, ?_, he.1.symm⟩
      rw [h]
      exact he.2.symm

/-- Characterization of a successful `report_on_simplex`: what the report
does to the trackers, the queue and the returned pair. -/
theorem report_on_simplex_shape (ev : Simplex → ℚ → ℚ) (v : ℚ) (sx : Simplex)
    (s1 : Optimizer) (r : ℚ × List ℚ) (s2 : Optimizer)
    (h : Optimizer.report_on_simplex ev v sx s1 = some (r, s2)) :
    ∃ cd, s1.current_difference = some cd
      ∧ s2.minimize = s1.minimize
      ∧ s2.search_space = s1.search_space
      ∧ s2.in_progress_simplex = s1.in_progress_simplex
      ∧ s2.current_simplex = none
      ∧ s2.current_difference = none
      ∧ s2.queue = s1.queue ++ (sx.split ⟨sx.center, v⟩ cd).map
          (fun ch => (ch, ev ch s1.exploration_depth))
      ∧ ((s1.best_point.value < v
            ∧ s2.best_point = ⟨sx.center, v⟩ ∧ s2.min_value = s1.min_value)
         ∨ (¬ s1.best_point.value < v ∧ v < s1.min_value
            ∧ s2.min_value = v ∧ s2.best_point = s1.best_point)
         ∨ (¬ s1.best_point.value < v ∧ ¬ v < s1.min_value
            ∧ s2.best_point = s1.best_point ∧ s2.min_value = s1.min_value))
      ∧ r = (if s2.minimize then -s2.best_point.value else s2.best_point.value,
             s2.search_space.to_hypercube s2.best_point.coordinates) := by
  unfold Optimizer.report_on_simplex at h
  rcases hcd : s1.current_difference with _ | cd
  · rw [hcd] at h; simp at h
  · rw [hcd] at h
    simp only [Option.some.injEq, Prod.mk.injEq] at h
    obtain ⟨hr, hs2⟩ := h
    refine ⟨cd, rfl, ?_⟩
    subst hs2
    by_cases h1 : s1.best_point.value < v
    · rw [if_pos h1] at hr ⊢
      exact ⟨rfl, rfl, rfl, rfl, rfl, rfl, Or.inl ⟨h1, rfl, rfl⟩, hr.symm⟩
    · rw [if_neg h1] at hr ⊢
      by_cases h2 : v < s1.min_value
      · rw [if_pos h2] at hr ⊢
        exact ⟨rfl, rfl, rfl, rfl, rfl, rfl, Or.inr (Or.inl ⟨h1, h2, rfl, rfl⟩), hr.symm⟩
      · rw [if_neg h2] at hr ⊢
        exact ⟨rfl, rfl, rfl, rfl, rfl, rfl, Or.inr (Or.inr ⟨h1, h2, rfl, rfl⟩), hr.symm⟩

/-- The `max_by_key` fold over a `some` accumulator yields an element that
dominates the accumulator and every list element. -/
theorem maxFold_spec :
    ∀ (l : List Point) (b : Point),
    ∃ m, l.foldl (fun acc c =>
        match acc with
        | none => some c
        | some bb => if bb.value ≤ c.value then some c else some bb) (some b) = some m
      ∧ (m = b ∨ m ∈ l) ∧ b.value ≤ m.value ∧ ∀ p ∈ l, p.value ≤ m.value := by
  intro l
  induction l with
  | nil => intro b; exact ⟨b, rfl, Or.inl rfl, le_refl _, by simp⟩
  | cons c l ih =>
    intro b
    by_cases hbc : b.value ≤ c.value
    · obtain ⟨m, hm, hmem, hble, hall⟩ := ih c
      refine ⟨m, ?_, ?_, le_trans hbc hble, ?_⟩
      · simpa [hbc] using hm
      · rcases hmem with rfl | hmem
        · exact Or.inr (List.mem_cons_self _ _)
        · exact Or.inr (List.mem_cons_of_mem _ hmem)
      · intro p hp
        rcases List.mem_cons.mp hp with rfl | hp
        · exact hble
        · exact hall p hp
    · obtain ⟨m, hm, hmem, hble, hall⟩ := ih b
      refine ⟨m, ?_, ?_, hble, ?_⟩
      · simpa [hbc] using hm
      · rcases hmem with rfl | hmem
        · exact Or.inl rfl
        · exact Or.inr (List.mem_cons_of_mem _ hmem)
      · intro p hp
        rcases List.mem_cons.mp hp with rfl | hp
        · exact le_trans (le_of_not_le hbc) hble
        · exact hall p hp

/-- The `min_by_key` fold over a `some` accumulator yields an element that
is dominated by the accumulator and by every list element. -/
theorem minFold_spec :
    ∀ (l : List Point) (b : Point),
    ∃ m, l.foldl (fun acc c =>
        match acc with
        | none => some c
        | some bb => if c.value < bb.value then some c else some bb) (some b) = some m
      ∧ (m = b ∨ m ∈ l) ∧ m.value ≤ b.value ∧ ∀ p ∈ l, m.value ≤ p.value := by
  intro l
  induction l with
  | nil => intro b; exact ⟨b, rfl, Or.inl rfl, le_refl _, by simp⟩
  | cons c l ih =>
    intro b
    by_cases hcb : c.value < b.value
    · obtain ⟨m, hm, hmem, hble, hall⟩ := ih c
      refine ⟨m, ?_, ?_, le_trans hble (le_of_lt hcb), ?_⟩
      · simpa [hcb] using hm
      · rcases hmem with rfl | hmem
        · exact Or.inr (List.mem_cons_self _ _)
        · exact Or.inr (List.mem_cons_of_mem _ hmem)
      · intro p hp
        rcases List.mem_cons.mp hp with rfl | hp
        · exact hble
        · exact hall p hp
    · obtain ⟨m, hm, hmem, hble, hall⟩ := ih b
      refine ⟨m, ?_, ?_, hble, ?_⟩
      · simpa [hcb] using hm
      · rcases hmem with rfl | hmem
        · exact Or.inl rfl
        · exact Or.inr (List.mem_cons_of_mem _ hmem)
      · intro p hp
        rcases List.mem_cons.mp hp with rfl | hp
        · exact le_trans hble (le_of_not_lt hcb)
        · exact hall p hp

/-- A nonempty corner list has a `max_by_key` result, which is a maximal
corner. -/
theorem maxByValue_spec (l : List Point) (hl : l ≠ []) :
    ∃ m, maxByValue l = some m ∧ m ∈ l ∧ ∀ p ∈ l, p.value ≤ m.value := by
  cases l with
  | nil => exact absurd rfl hl
  | cons c l =>
    obtain ⟨m, hm, hmem, hble, hall⟩ := maxFold_spec l c
    refine ⟨m, hm, ?_, ?_⟩
    · rcases hmem with rfl | hmem
      · exact List.mem_cons_self _ _
      · exact List.mem_cons_of_mem _ hmem
    · intro p hp
      rcases List.mem_cons.mp hp with rfl | hp
      · exact hble
      · exact hall p hp

/-- A nonempty corner list has a `min_by_key` result, which is a minimal
corner. -/
theorem minByValue_spec (l : List Point) (hl : l ≠ []) :
    ∃ m, minByValue l = some m ∧ m ∈ l ∧ ∀ p ∈ l, m.value ≤ p.value := by
  cases l with
  | nil => exact absurd rfl hl
  | cons c l =>
    obtain ⟨m, hm, hmem, hble, hall⟩ := minFold_spec l c
    refine ⟨m, hm, ?_, ?_⟩
    · rcases hmem with rfl | hmem
      · exact List.mem_cons_self _ _
      · exact List.mem_cons_of_mem _ hmem
    · intro p hp
      rcases List.mem_cons.mp hp with rfl | hp
      · exact hble
      · exact hall p hp

/-! ## Branch equations for the optimizer operations -/

theorem nwv_bootstrap_eq (ev : Simplex → ℚ → ℚ) (v : ℚ) (s : Optimizer)
    (p : ℕ × Simplex) (hip : s.in_progress_simplex = some p) :
    s.next_with_value ev v = (s.step_in_progress_simplex v).map
      (fun r => ((r.2.best_point.value, r.2.best_point.coordinates), r.2)) := by
  unfold Optimizer.next_with_value
  rw [hip]

theorem nwv_pending_eq (ev : Simplex → ℚ → ℚ) (v : ℚ) (s : Optimizer)
    (sx : Simplex) (hip : s.in_progress_simplex = none)
    (hcs : s.current_simplex = some sx) :
    s.next_with_value ev v = Optimizer.report_on_simplex ev v sx s := by
  unfold Optimizer.next_with_value
  rw [hip, hcs]

theorem nwv_materialize_eq (ev : Simplex → ℚ → ℚ) (v : ℚ) (s : Optimizer)
    (hip : s.in_progress_simplex = none) (hcs : s.current_simplex = none) :
    s.next_with_value ev v
      = (s.next_explore_point ev).bind (fun p => p.2.next_with_value ev v) := by
  unfold Optimizer.next_with_value
  rw [hip, hcs]
  rcases hne : s.next_explore_point ev with _ | ⟨c, s1⟩
  · rfl
  · obtain ⟨sx2, q2, hs1, _⟩ := next_explore_point_shape ev s c s1 hip hne
    have hip1 : s1.in_progress_simplex = none := by rw [hs1]; exact hip
    have hcs1 : s1.current_simplex = some sx2 := by rw [hs1]
    simp only [Option.some_bind]
    rw [hip1, hcs1]

theorem step_eq_of_some (s : Optimizer) (v : ℚ) (dim : ℕ) (sx : Simplex)
    (hip : s.in_progress_simplex = some (dim, sx)) :
    s.step_in_progress_simplex v
      = match sx.corners.get? dim with
        | none => none
        | some corner =>
          let sx2 := { sx with corners := sx.corners.set dim ⟨corner.coordinates, v⟩ }
          if dim + 1 < sx2.corners.length then
            match sx2.corners.get? (dim + 1) with
            | none => none
            | some c2 =>
              some (some c2.coordinates,
                { s with in_progress_simplex := some (dim + 1, sx2) })
          else
            (Optimizer.finalize_initial_simplex
                { s with in_progress_simplex := some (dim + 1, sx2) }).map
              (fun s2 => (none, s2)) := by
  unfold Optimizer.step_in_progress_simplex
  rw [hip]

theorem finalize_eq_of_some (s : Optimizer) (dim : ℕ) (sx : Simplex)
    (hip : s.in_progress_simplex = some (dim, sx)) :
    s.finalize_initial_simplex
      = match maxByValue sx.corners, minByValue sx.corners with
        | some bp, some mv =>
          some { s with
                 queue := s.queue ++ [(sx, 0)]
                 min_value := mv.value
                 best_point := bp
                 in_progress_simplex := none }
        | _, _ => none := by
  unfold Optimizer.finalize_initial_simplex
  rw [hip]

/-! ## Run-level queue invariant -/

theorem popMax_mem (l : List (Simplex × ℚ)) :
    ∀ m rest, popMax l = some (m, rest) → m ∈ l ∧ ∀ x ∈ rest, x ∈ l := by
  induction l with
  | nil => intro m rest h; simp [popMax] at h
  | cons x xs ih =>
    intro m rest h
    simp only [popMax] at h
    rcases h2 : popMax xs with _ | ⟨pm, prest⟩
    · rw [h2] at h
      simp only [Option.some.injEq, Prod.mk.injEq] at h
      obtain ⟨hm, hrest⟩ := h
      subst hm; subst hrest
      exact ⟨List.mem_cons_self _ _, by simp⟩
    · rw [h2] at h
      simp only [] at h
      obtain ⟨hpm, hsub⟩ := ih pm prest h2
      split at h <;>
        simp only [Option.some.injEq, Prod.mk.injEq] at h <;>
        obtain ⟨hm, hrest⟩ := h <;> subst hm <;> subst hrest
      · exact ⟨List.mem_cons_self _ _, fun y hy => List.mem_cons_of_mem _ hy⟩
      · refine ⟨List.mem_cons_of_mem _ hpm, ?_⟩
        intro y hy
        rcases List.mem_cons.mp hy with rfl | hy2
        · exact List.mem_cons_self _ _
        · exact List.mem_cons_of_mem _ (hsub y hy2)

theorem rescoreLoop_corners (ev : Simplex → ℚ → ℚ) (depth bv mv cd : ℚ) :
    ∀ (fuel : ℕ) (sx : Simplex) (q : List (Simplex × ℚ)) sx2 q2 n,
    rescoreLoop ev depth bv mv cd fuel sx q = some (sx2, q2, n) →
    sx.corners ≠ [] → (∀ e ∈ q, e.1.corners ≠ []) →
    sx2.corners ≠ [] ∧ ∀ e ∈ q2, e.1.corners ≠ [] := by
  intro fuel
  induction fuel with
  | zero =>
    intro sx q sx2 q2 n h hsx hq
    simp only [rescoreLoop, Option.some.injEq, Prod.mk.injEq] at h
    obtain ⟨h1, h2, _⟩ := h
    subst h1; subst h2
    exact ⟨hsx, hq⟩
  | succ fuel ih =>
    intro sx q sx2 q2 n h hsx hq
    by_cases hd : sx.difference = cd
    · rw [show rescoreLoop ev depth bv mv cd (fuel + 1) sx q = some (sx, q, 0) from
        by simp [rescoreLoop, hd]] at h
      simp only [Option.some.injEq, Prod.mk.injEq] at h
      obtain ⟨h1, h2, _⟩ := h
      subst h1; subst h2
      exact ⟨hsx, hq⟩
    · rcases hp : popMax (q ++ [({ sx with difference := cd },
          ev { sx with difference := cd } depth)]) with _ | ⟨top, q3⟩
      · exact absurd ((popMax_eq_none_iff _).mp hp) (by simp)
      · have hunf : rescoreLoop ev depth bv mv cd (fuel + 1) sx q
            = (rescoreLoop ev depth bv mv cd fuel top.1 q3).map
                (fun r => (r.1, r.2.1, r.2.2 + 1)) := by
          simp only [rescoreLoop, hd, if_false, hp]
        rw [hunf] at h
        rcases hrec : rescoreLoop ev depth bv mv cd fuel top.1 q3 with _ | ⟨a, b2, k⟩
        · rw [hrec] at h; simp at h
        · rw [hrec] at h
          simp only [Option.map_some', Option.some.injEq, Prod.mk.injEq] at h
          obtain ⟨h1, h2, _⟩ := h
          subst h1; subst h2
          obtain ⟨htop, hsub⟩ := popMax_mem _ top q3 hp
          have hmem1 : ∀ e ∈ q ++ [({ sx with difference := cd },
              ev { sx with difference := cd } depth)], e.1.corners ≠ [] := by
            intro e he
            rcases List.mem_append.mp he with h3 | h3
            · exact hq e h3
            · rw [List.mem_singleton] at h3
              subst h3
              exact hsx
          exact ih top.1 q3 a b2 k hrec (hmem1 top htop)
            (fun e he => hmem1 e (hsub e he))

theorem split_length (sx : Simplex) (p : Point) (range : ℚ) :
    (sx.split p range).length = sx.corners.length := by
  unfold Simplex.split
  rw [List.length_map, List.length_range]

theorem split_corners_nonempty (sx : Simplex) (p : Point) (range : ℚ)
    (h : sx.corners ≠ []) :
    ∀ ch ∈ sx.split p range, ch.corners ≠ [] := by
  intro ch hch
  unfold Simplex.split at hch
  rw [List.mem_map] at hch
  obtain ⟨i, _, rfl⟩ := hch
  show sx.corners.set i p ≠ []
  intro hcon
  have hl := congrArg List.length hcon
  rw [List.length_set, List.length_nil] at hl
  exact h (List.length_eq_zero.mp hl)

/-- A successful steady-state `next_explore_point` from a non-empty queue
with cornered simplices: it succeeds and yields a pending simplex with
corners, a range snapshot, and a queue of cornered simplices. -/
theorem next_explore_point_inv (ev : Simplex → ℚ → ℚ) (s : Optimizer)
    (h1 : s.in_progress_simplex = none) (h2 : s.queue ≠ [])
    (hq : ∀ e ∈ s.queue, e.1.corners ≠ []) :
    ∃ c s1, s.next_explore_point ev = some (c, s1)
      ∧ s1.in_progress_simplex = none
      ∧ (∃ sx2 cd, s1.current_simplex = some sx2 ∧ sx2.corners ≠ []
          ∧ s1.current_difference = some cd)
      ∧ (∀ e ∈ s1.queue, e.1.corners ≠ []) := by
  rcases hp : popMax s.queue with _ | ⟨top, q1⟩
  · exact absurd ((popMax_eq_none_iff _).mp hp) h2
  · obtain ⟨htop, hsub⟩ := popMax_mem s.queue top q1 hp
    obtain ⟨sx2, q2, n, hr, _⟩ := rescoreLoop_some ev s.exploration_depth
      s.best_point.value s.min_value (s.best_point.value - s.min_value)
      q1.length top.1 q1
    obtain ⟨hsx2, hq2⟩ := rescoreLoop_corners ev s.exploration_depth
      s.best_point.value s.min_value (s.best_point.value - s.min_value)
      q1.length top.1 q1 sx2 q2 n hr (hq top htop)
      (fun e he => hq e (hsub e he))
    have heq : s.next_explore_point ev
        = some (s.search_space.to_hypercube sx2.center,
            { s with
              queue := q2
              current_simplex := some sx2
              current_difference := some (s.best_point.value - s.min_value) }) := by
      unfold Optimizer.next_explore_point
      rw [h1, hp]
      simp only [hr]
    exact ⟨_, _, heq, h1,
      ⟨sx2, s.best_point.value - s.min_value, rfl, hsx2, rfl⟩, hq2⟩

/-- A report on a pending simplex with corners always succeeds and restores
a non-empty queue of cornered simplices, clearing the pending suggestion. -/
theorem report_on_simplex_inv (ev : Simplex → ℚ → ℚ) (v : ℚ) (sx : Simplex)
    (s1 : Optimizer) (cd : ℚ) (hcd : s1.current_difference = some cd)
    (hsx : sx.corners ≠ [])
    (hq : ∀ e ∈ s1.queue, e.1.corners ≠ []) :
    ∃ r s2, Optimizer.report_on_simplex ev v sx s1 = some (r, s2)
      ∧ s2.in_progress_simplex = s1.in_progress_simplex
      ∧ s2.current_simplex = none
      ∧ s2.queue ≠ []
      ∧ (∀ e ∈ s2.queue, e.1.corners ≠ []) := by
  have hsome : ∃ r s2, Optimizer.report_on_simplex ev v sx s1 = some (r, s2) := by
    unfold Optimizer.report_on_simplex
    rw [hcd]
    exact ⟨_, _, rfl⟩
  obtain ⟨r, s2, heq⟩ := hsome
  obtain ⟨cd2, _, _, _, hips, hcs2, _, hqueue, _, _⟩ :=
    report_on_simplex_shape ev v sx s1 r s2 heq
  refine ⟨r, s2, heq, hips, hcs2, ?_, ?_⟩
  · rw [hqueue]
    intro hcon
    have hl := congrArg List.length hcon
    rw [List.length_append, List.length_map, split_length, List.length_nil] at hl
    have hpos : 0 < sx.corners.length := List.length_pos.mpr hsx
    omega
  · rw [hqueue]
    intro e he
    rcases List.mem_append.mp he with h3 | h3
    · exact hq e h3
    · rw [List.mem_map] at h3
      obtain ⟨ch, hch, rfl⟩ := h3
      exact split_corners_nonempty sx ⟨sx.center, v⟩ cd2 hsx ch hch

/-- The two possible outcomes of a bootstrap-phase report with an in-range
pointer: the pointer advances (queue untouched) or finalization appends the
completed simplex — in both cases the call succeeds and the pending
suggestion and range snapshot are untouched. -/
theorem nwv_bootstrap_cases (ev : Simplex → ℚ → ℚ) (v : ℚ) (s : Optimizer)
    (dim : ℕ) (sx : Simplex)
    (hip : s.in_progress_simplex = some (dim, sx))
    (hdim : dim < sx.corners.length) :
    ∃ r s2, s.next_with_value ev v = some (r, s2)
      ∧ s2.current_simplex = s.current_simplex
      ∧ s2.current_difference = s.current_difference
      ∧ ((∃ dim2 sx2, s2.in_progress_simplex = some (dim2, sx2)
            ∧ dim2 < sx2.corners.length ∧ s2.queue = s.queue)
         ∨ (s2.in_progress_simplex = none
            ∧ ∃ sx2, s2.queue = s.queue ++ [(sx2, 0)] ∧ sx2.corners ≠ [])) := by
  obtain ⟨c, hc⟩ : ∃ c, sx.corners.get? dim = some c := by
    rcases hcg : sx.corners.get? dim with _ | c
    · rw [List.get?_eq_none] at hcg; omega
    · exact ⟨c, rfl⟩
  by_cases hcond : dim + 1 < sx.corners.length
  · obtain ⟨c2, hc2⟩ : ∃ c2,
        (sx.corners.set dim ⟨c.coordinates, v⟩).get? (dim + 1) = some c2 := by
      rcases hcg2 : (sx.corners.set dim ⟨c.coordinates, v⟩).get? (dim + 1) with _ | c2
      · rw [List.get?_eq_none, List.length_set] at hcg2; omega
      · exact ⟨c2, rfl⟩
    have hstep : s.step_in_progress_simplex v
        = some (some c2.coordinates,
            { s with in_progress_simplex := some (dim + 1, { sx with corners := sx.corners.set dim ⟨c.coordinates, v⟩ }) }) := by
      rw [step_eq_of_some s v dim sx hip]
      simp only [hc, List.length_set]
      rw [if_pos hcond]
      simp only [hc2]
    have hnwv : s.next_with_value ev v
        = some ((s.best_point.value, s.best_point.coordinates),
            { s with in_progress_simplex := some (dim + 1, { sx with corners := sx.corners.set dim ⟨c.coordinates, v⟩ }) }) := by
      rw [nwv_bootstrap_eq ev v s (dim, sx) hip, hstep]
      rfl
    refine ⟨_, _, hnwv, rfl, rfl, Or.inl ?_⟩
    refine ⟨dim + 1, { sx with corners := sx.corners.set dim ⟨c.coordinates, v⟩ },
      rfl, ?_, rfl⟩
    show dim + 1 < (sx.corners.set dim ⟨c.coordinates, v⟩).length
    rw [List.length_set]
    exact hcond
  · have hne2 : sx.corners.set dim ⟨c.coordinates, v⟩ ≠ [] := by
      intro hcon
      have hl := congrArg List.length hcon
      rw [List.length_set, List.length_nil] at hl
      omega
    obtain ⟨bp, hbp, _, _⟩ :=
      maxByValue_spec (sx.corners.set dim ⟨c.coordinates, v⟩) hne2
    obtain ⟨mv, hmv, _, _⟩ :=
      minByValue_spec (sx.corners.set dim ⟨c.coordinates, v⟩) hne2
    have hstep : s.step_in_progress_simplex v
        = some (none,
            { s with
              queue := s.queue ++
                [({ sx with corners := sx.corners.set dim ⟨c.coordinates, v⟩ }, 0)]
              min_value := mv.value
              best_point := bp
              in_progress_simplex := none }) := by
      rw [step_eq_of_some s v dim sx hip]
      simp only [hc, List.length_set]
      rw [if_neg hcond]
      rw [finalize_eq_of_some _ (dim + 1)
        { sx with corners := sx.corners.set dim ⟨c.coordinates, v⟩ } rfl]
      simp only [hbp, hmv, Option.map_some']
    have hnwv : s.next_with_value ev v
        = some ((bp.value, bp.coordinates),
            { s with
              queue := s.queue ++
                [({ sx with corners := sx.corners.set dim ⟨c.coordinates, v⟩ }, 0)]
              min_value := mv.value
              best_point := bp
              in_progress_simplex := none }) := by
      rw [nwv_bootstrap_eq ev v s (dim, sx) hip, hstep]
      rfl
    refine ⟨_, _, hnwv, rfl, rfl, Or.inr ⟨rfl, ?_⟩⟩
    refine ⟨{ sx with corners := sx.corners.set dim ⟨c.coordinates, v⟩ }, rfl, ?_⟩
    exact hne2

/-- Construction establishes the invariant. -/
theorem queueInv_new (bounds : List (ℚ × ℚ)) (mini : Bool) :
    QueueInv (Optimizer.new bounds mini) := by
  constructor
  · intro e he
    simp [Optimizer.new] at he
  · refine Or.inl ⟨0, Simplex.initial_simplex ⟨bounds⟩, rfl, ?_, rfl⟩
    show 0 < (Simplex.initial_simplex ⟨bounds⟩).corners.length
    simp [Simplex.initial_simplex]

/-- Disciplined runs from an invariant state never fail: every pop is on a
non-empty queue and every indexing is in range. -/
theorem runCalls_isSome_of_inv (ev : Simplex → ℚ → ℚ) :
    ∀ (calls : List Call) (s : Optimizer), QueueInv s →
    noPendingSuggestB ev s calls = true →
    (runCalls ev s calls).isSome = true := by
  intro calls
  induction calls with
  | nil => intro s _ _; rfl
  | cons call rest ih =>
    intro s hinv hd
    obtain ⟨hq, hcase⟩ := hinv
    cases call with
    | suggest =>
      simp only [noPendingSuggestB, Bool.and_eq_true] at hd
      obtain ⟨hnoneB, hd2⟩ := hd
      have hcs : s.current_simplex = none := Option.isNone_iff_eq_none.mp hnoneB
      rcases hcase with ⟨dim, sx, hip, hdim, hcs2⟩ | ⟨hip, hcs2, hqne⟩
          | ⟨hip, sx, cd, hcs2, _, _⟩
      · obtain ⟨c, hc⟩ : ∃ c, sx.corners.get? dim = some c := by
          rcases hcg : sx.corners.get? dim with _ | c
          · rw [List.get?_eq_none] at hcg; omega
          · exact ⟨c, rfl⟩
        have hs : s.next_explore_point ev = some (c.coordinates, s) := by
          simp only [Optimizer.next_explore_point, hip, hc]
        simp only [runCalls, hs, Option.some_bind]
        rw [hs] at hd2
        exact ih s ⟨hq, Or.inl ⟨dim, sx, hip, hdim, hcs2⟩⟩ hd2
      · obtain ⟨c, s1, hs, hip1, ⟨sx2, cd, hcs1, hsx2, hcd1⟩, hq1⟩ :=
          next_explore_point_inv ev s hip hqne hq
        simp only [runCalls, hs, Option.some_bind]
        rw [hs] at hd2
        exact ih s1 ⟨hq1, Or.inr (Or.inr ⟨hip1, sx2, cd, hcs1, hsx2, hcd1⟩)⟩ hd2
      · rw [hcs] at hcs2
        exact Option.noConfusion hcs2
    | report v =>
      simp only [noPendingSuggestB] at hd
      rcases hcase with ⟨dim, sx, hip, hdim, hcs2⟩ | ⟨hip, hcs2, hqne⟩
          | ⟨hip, sx, cd, hcs2, hsx, hcd⟩
      · obtain ⟨r, s2, hnwv, hcs', hcd', hor⟩ :=
          nwv_bootstrap_cases ev v s dim sx hip hdim
        simp only [runCalls, hnwv, Option.some_bind]
        rw [hnwv] at hd
        apply ih s2 ?_ hd
        rcases hor with ⟨dim2, sx2, hip2, hdim2, hq2⟩ | ⟨hip2, sx2, hq2, hsx2⟩
        · refine ⟨by rw [hq2]; exact hq,
            Or.inl ⟨dim2, sx2, hip2, hdim2, by rw [hcs']; exact hcs2⟩⟩
        · refine ⟨?_, Or.inr (Or.inl ⟨hip2, by rw [hcs']; exact hcs2,
            by rw [hq2]; simp⟩)⟩
          intro e he
          rw [hq2] at he
          rcases List.mem_append.mp he with h3 | h3
          · exact hq e h3
          · rw [List.mem_singleton] at h3
            subst h3
            exact hsx2
      · obtain ⟨c, s1, hs, hip1, ⟨sx2, cd, hcs1, hsx2, hcd1⟩, hq1⟩ :=
          next_explore_point_inv ev s hip hqne hq
        obtain ⟨r, s2, hrep, hips, hcs', hqne2, hq2⟩ :=
          report_on_simplex_inv ev v sx2 s1 cd hcd1 hsx2 hq1
        have hfull : s.next_with_value ev v = some (r, s2) := by
          rw [nwv_materialize_eq ev v s hip hcs2, hs, Option.some_bind,
            nwv_pending_eq ev v s1 sx2 hip1 hcs1, hrep]
        simp only [runCalls, hfull, Option.some_bind]
        rw [hfull] at hd
        exact ih s2 ⟨hq2, Or.inr (Or.inl ⟨hips.trans hip1, hcs', hqne2⟩)⟩ hd
      · obtain ⟨r, s2, hrep, hips, hcs', hqne2, hq2⟩ :=
          report_on_simplex_inv ev v sx s cd hcd hsx hq
        have hfull : s.next_with_value ev v = some (r, s2) := by
          rw [nwv_pending_eq ev v s sx hip hcs2, hrep]
        simp only [runCalls, hfull, Option.some_bind]
        rw [hfull] at hd
        exact ih s2 ⟨hq2, Or.inr (Or.inl ⟨hips.trans hip, hcs', hqne2⟩)⟩ hd

/-! ## Claim theorems -/

set_option maxRecDepth 4000 in
set_option exponentiation.threshold 1100 in
/-- C1: In the lazy-rescoring loop, when the stale `simplexA` is rescored
(its raw estimate under `evC1` being `2 * floatMaxValue`, far beyond the
largest finite float and in particular beyond the best observed value 1),
the priority actually inserted into the queue is the RAW estimate, not the
clamped `cleaned_evaluation` (which would be the best observed value 1): the
code computes the clamped score and then discards it.  This refutes the
claim that the clamped score is inserted and exhibits the code bug. -/
theorem c1_raw_priority_inserted :
    (stateC1.next_explore_point evC1).map (fun r => r.2.queue)
        = some [({ simplexA with difference := 1 }, 2 * floatMaxValue)]
    ∧ cleanedEvaluation (2 * floatMaxValue) stateC1.best_point.value stateC1.min_value = 1
    ∧ (2 * floatMaxValue : ℚ) ≠ 1 :=
  ⟨by with_unfolding_all rfl, by with_unfolding_all rfl, by with_unfolding_all decide⟩

/-- C2 (counterexample): starting from a fresh 1-dimensional optimizer,
after the three reports 0, 0, 1 the optimizer is in the steady-state phase
with no pending suggestion; two successive `next_explore_point` calls then
return DIFFERENT coordinates ([1/4] and then [3/4]) because the second call
pops a further simplex instead of returning the pending suggestion. -/
theorem c2_counterexample :
    (runCalls evZero (Optimizer.new [(0, 1)] false)
        [Call.report 0, Call.report 0, Call.report 1]).bind (twoSuggests evZero)
      = some ([1/4], [3/4])
    ∧ ([1/4] : List ℚ) ≠ [3/4] :=
  ⟨by with_unfolding_all rfl, by with_unfolding_all decide⟩

/-- C2 (amended): in the bootstrap phase, `next_explore_point` returns the
pending corner's coordinates and leaves the state completely unchanged, so
calling it twice with no intervening `next_with_value` returns identical
coordinates and the second call does not pop; in the steady-state phase the
second call pops a further simplex (see the counterexample). -/
theorem c2_bootstrap_idempotent (ev : Simplex → ℚ → ℚ) (s : Optimizer)
    (dim : ℕ) (sx : Simplex) (c : Point)
    (h : s.in_progress_simplex = some (dim, sx))
    (hc : sx.corners.get? dim = some c) :
    s.next_explore_point ev = some (c.coordinates, s) := by
  simp only [Optimizer.next_explore_point, h, hc]

/-- Witness for C2's amended theorem at a concrete bootstrap state. -/
theorem c2_bootstrap_idempotent_w :
    Optimizer.next_explore_point evZero (Optimizer.new [(0, 1)] false)
      = some ([0], Optimizer.new [(0, 1)] false) :=
  c2_bootstrap_idempotent evZero (Optimizer.new [(0, 1)] false) 0
    (Simplex.initial_simplex ⟨[(0, 1)]⟩) ⟨[0], 0⟩ rfl (by with_unfolding_all rfl)

/-- C4 (counterexample): after completing the bootstrap of a 1-dimensional
optimizer (two reports), calling `next_explore_point` twice in a row pops
the queue twice; the second pop finds the queue empty and the
`expect` branch fires (modelled as `none`). -/
theorem c4_counterexample :
    runCalls evZero (Optimizer.new [(0, 1)] false)
        [Call.report 0, Call.report 0, Call.suggest, Call.suggest] = none := by
  with_unfolding_all rfl

/-- C4 (amended): for every finite sequence of `next_explore_point` and
`next_with_value` calls after construction in which `next_explore_point` is
never invoked while a suggestion is already pending, the entire run succeeds
— no call panics (`runCalls` returns `some`): in particular every pop
attempted in the steady-state phase, the initial pop as well as every
in-loop pop, finds a non-empty queue, so the two empty-queue `expect`
branches are unreachable.  Without the proviso the claim fails (see the
counterexample). -/
theorem c4_no_empty_pop (ev : Simplex → ℚ → ℚ) (bounds : List (ℚ × ℚ))
    (mini : Bool) (calls : List Call)
    (hd : noPendingSuggestB ev (Optimizer.new bounds mini) calls = true) :
    (runCalls ev (Optimizer.new bounds mini) calls).isSome = true :=
  runCalls_isSome_of_inv ev calls (Optimizer.new bounds mini)
    (queueInv_new bounds mini) hd

/-- Witness for C4's amended theorem: a concrete disciplined sequence
covering the bootstrap, an explicit suggest/report pair, and a report with
no pending suggestion. -/
theorem c4_no_empty_pop_w :
    noPendingSuggestB evZero (Optimizer.new [(0, 1)] false)
        [Call.report 0, Call.report 0, Call.suggest, Call.report 1,
          Call.report 2] = true
    ∧ (runCalls evZero (Optimizer.new [(0, 1)] false)
        [Call.report 0, Call.report 0, Call.suggest, Call.report 1,
          Call.report 2]).isSome = true :=
  ⟨by with_unfolding_all rfl,
   c4_no_empty_pop evZero [(0, 1)] false
     [Call.report 0, Call.report 0, Call.suggest, Call.report 1,
       Call.report 2] (by with_unfolding_all rfl)⟩

/-- C6: on a steady-state `next_explore_point` call, the lazy-rescoring loop
always returns (it terminates), and it performs at most `q1.length`
iterations where `q1` is the queue after the initial pop — strictly fewer
than the queue size at entry, hence at most `queue.size()` simplices are
visited even if no popped simplex carries the current range. -/
theorem c6_rescoring_bounded (ev : Simplex → ℚ → ℚ) (s : Optimizer)
    (top : Simplex × ℚ) (q1 : List (Simplex × ℚ))
    (h : s.in_progress_simplex = none)
    (hp : popMax s.queue = some (top, q1)) :
    (rescoreLoop ev s.exploration_depth s.best_point.value s.min_value
        (s.best_point.value - s.min_value) q1.length top.1 q1).isSome = true
    ∧ ∀ sx2 q2 n,
        rescoreLoop ev s.exploration_depth s.best_point.value s.min_value
            (s.best_point.value - s.min_value) q1.length top.1 q1
          = some (sx2, q2, n) →
        n ≤ q1.length ∧ q1.length < s.queue.length
        ∧ s.next_explore_point ev
            = some (s.search_space.to_hypercube sx2.center,
                { s with
                  queue := q2
                  current_simplex := some sx2
                  current_difference := some (s.best_point.value - s.min_value) }) := by
  obtain ⟨sx2, q2, n, hr, hn⟩ := rescoreLoop_some ev s.exploration_depth
    s.best_point.value s.min_value (s.best_point.value - s.min_value)
    q1.length top.1 q1
  constructor
  · rw [hr]; rfl
  · intro sx3 q3 m hm
    rw [hr] at hm
    simp only [Option.some.injEq, Prod.mk.injEq] at hm
    obtain ⟨hsx, hq, hmm⟩ := hm
    subst hsx; subst hq; subst hmm
    have hlen := popMax_length s.queue top q1 hp
    refine ⟨hn, by omega, ?_⟩
    unfold Optimizer.next_explore_point
    rw [h, hp]
    simp only [hr]

/-- Witness for C6 at a concrete steady state (the popped simplex is fresh,
so the loop performs zero iterations). -/
theorem c6_rescoring_bounded_w :
    (rescoreLoop evZero stateR.exploration_depth stateR.best_point.value
        stateR.min_value (stateR.best_point.value - stateR.min_value)
        (List.length ([] : List (Simplex × ℚ))) sxQueued []).isSome = true
    ∧ (0 : ℕ) ≤ List.length ([] : List (Simplex × ℚ))
    ∧ List.length ([] : List (Simplex × ℚ)) < stateR.queue.length
    ∧ Optimizer.next_explore_point evZero stateR
        = some ([5], { stateR with
                       queue := []
                       current_simplex := some sxQueued
                       current_difference := some 3 }) := by
  have h := c6_rescoring_bounded evZero stateR (sxQueued, 0) [] rfl
    (by with_unfolding_all rfl)
  have h2 := h.2 sxQueued [] 0 (by with_unfolding_all rfl)
  exact ⟨h.1, h2.1, h2.2.1, by rw [h2.2.2]; with_unfolding_all rfl⟩

/-- C9: when `next_with_value` is called in the steady-state phase with no
pending suggestion, it first materializes one internally by running
`next_explore_point`, and the resulting return value and state coincide with
those of calling `next_explore_point` explicitly followed by
`next_with_value` with the same reported value. -/
theorem c9_implicit_suggest (ev : Simplex → ℚ → ℚ) (s : Optimizer) (v : ℚ)
    (h1 : s.in_progress_simplex = none) (h2 : s.current_simplex = none) :
    s.next_with_value ev v
      = (s.next_explore_point ev).bind (fun p => p.2.next_with_value ev v) :=
  nwv_materialize_eq ev v s h1 h2

/-- Witness for C9 at a concrete steady state with no pending suggestion. -/
theorem c9_implicit_suggest_w :
    Optimizer.next_with_value evZero stateR 2
      = (Optimizer.next_explore_point evZero stateR).bind
          (fun p => p.2.next_with_value evZero 2) :=
  c9_implicit_suggest evZero stateR 2 rfl rfl

/-- C3 (counterexample): on a 1-dimensional minimizing optimizer over
bounds (3, 5), the bootstrap-phase call reporting the last corner value 7
returns `(7, [1])` — the raw internal best value with no sign flip, and the
best point's INTERNAL coordinates — whereas the claim requires
`(-7, to_hypercube [1]) = (-7, [5])`. -/
theorem c3_counterexample :
    (((Optimizer.new [(3, 5)] true).next_with_value evZero 5).bind
        (fun p => p.2.next_with_value evZero 7)).map Prod.fst = some (7, [1])
    ∧ some ((7 : ℚ), ([1] : List ℚ))
        ≠ some (-(7 : ℚ), SearchSpace.to_hypercube ⟨[(3, 5)]⟩ [1]) :=
  ⟨by with_unfolding_all rfl, by with_unfolding_all decide⟩

/-- C3 (amended): `next_with_value` returns the sign-flipped best value with
domain-mapped coordinates only in the steady-state phase; during the
bootstrap phase it returns the raw internal best value and the best point's
internal (un-mapped) coordinates. -/
theorem c3_return_signed_mapped (ev : Simplex → ℚ → ℚ) (s : Optimizer)
    (v : ℚ) (r : ℚ × List ℚ) (s2 : Optimizer)
    (h : s.next_with_value ev v = some (r, s2)) :
    r = if s.in_progress_simplex.isSome then
          (s2.best_point.value, s2.best_point.coordinates)
        else
          (if s2.minimize then -s2.best_point.value else s2.best_point.value,
           s2.search_space.to_hypercube s2.best_point.coordinates) := by
  rcases hip : s.in_progress_simplex with _ | p
  · rw [if_neg (by simp)]
    rcases hcs : s.current_simplex with _ | sx
    · rw [nwv_materialize_eq ev v s hip hcs] at h
      rcases hne : s.next_explore_point ev with _ | ⟨c, s1⟩
      · rw [hne] at h; simp at h
      · rw [hne] at h
        simp only [Option.some_bind] at h
        obtain ⟨sx2, q2, hs1, _⟩ := next_explore_point_shape ev s c s1 hip hne
        have hip1 : s1.in_progress_simplex = none := by rw [hs1]; exact hip
        have hcs1 : s1.current_simplex = some sx2 := by rw [hs1]
        rw [nwv_pending_eq ev v s1 sx2 hip1 hcs1] at h
        obtain ⟨cd, _, _, _, _, _, _, _, _, hr⟩ :=
          report_on_simplex_shape ev v sx2 s1 r s2 h
        exact hr
    · rw [nwv_pending_eq ev v s sx hip hcs] at h
      obtain ⟨cd, _, _, _, _, _, _, _, _, hr⟩ :=
        report_on_simplex_shape ev v sx s r s2 h
      exact hr
  · rw [if_pos (show (some p).isSome = true from rfl)]
    rw [nwv_bootstrap_eq ev v s p hip] at h
    rcases hst : s.step_in_progress_simplex v with _ | st
    · rw [hst] at h; simp at h
    · rw [hst] at h
      simp only [Option.map_some', Option.some.injEq, Prod.mk.injEq] at h
      obtain ⟨hr, hs⟩ := h
      subst hs
      exact hr.symm

/-- Witness for C3's amended theorem at a concrete steady-state report. -/
theorem c3_return_signed_mapped_w :
    Optimizer.next_with_value evZero stateS 2 = some (((-3 : ℚ), [2]), stateS2)
    ∧ ((-3 : ℚ), ([2] : List ℚ))
        = if stateS.in_progress_simplex.isSome then
            (stateS2.best_point.value, stateS2.best_point.coordinates)
          else
            (if stateS2.minimize then -stateS2.best_point.value
             else stateS2.best_point.value,
             stateS2.search_space.to_hypercube stateS2.best_point.coordinates) :=
  ⟨by with_unfolding_all rfl,
   c3_return_signed_mapped evZero stateS 2 ((-3 : ℚ), [2]) stateS2
     (by with_unfolding_all rfl)⟩

/-- C5 (counterexample): the internal `best_point.value` DECREASES across
bootstrap finalization when every reported corner value is below the
initial corner placeholder value: starting from a fresh 1-dimensional
optimizer, after reporting -5 the best value is still 0 (the unevaluated
placeholder), and after reporting -7 the bootstrap finalizes and the best
value drops to -5. -/
theorem c5_counterexample :
    ((Optimizer.new [(0, 1)] false).next_with_value evZero (-5)).map
        (fun p => p.2.best_point.value) = some 0
    ∧ (((Optimizer.new [(0, 1)] false).next_with_value evZero (-5)).bind
        (fun p => p.2.next_with_value evZero (-7))).map
          (fun p => p.2.best_point.value) = some (-5)
    ∧ ¬ ((0 : ℚ) ≤ -5) :=
  ⟨by with_unfolding_all rfl, by with_unfolding_all rfl,
   by with_unfolding_all decide⟩

/-- C5 (amended): `best_point.value` is non-decreasing across every
steady-state `next_with_value` call (hence, when minimizing, the externally
returned best value is non-increasing there), and is left unchanged by every
bootstrap call that does not finalize; it may decrease only at the
finalization step, where it is reset to the maximal corner value. -/
theorem c5_best_monotone (ev : Simplex → ℚ → ℚ) (s : Optimizer) (v : ℚ)
    (r : ℚ × List ℚ) (s2 : Optimizer)
    (h : s.next_with_value ev v = some (r, s2)) :
    (s.in_progress_simplex = none → s.best_point.value ≤ s2.best_point.value)
    ∧ (∀ dim sx, s.in_progress_simplex = some (dim, sx) →
        dim + 1 < sx.corners.length → s2.best_point = s.best_point) := by
  constructor
  · intro hip
    rcases hcs : s.current_simplex with _ | sx
    · rw [nwv_materialize_eq ev v s hip hcs] at h
      rcases hne : s.next_explore_point ev with _ | ⟨c, s1⟩
      · rw [hne] at h; simp at h
      · rw [hne] at h
        simp only [Option.some_bind] at h
        obtain ⟨sx2, q2, hs1, _⟩ := next_explore_point_shape ev s c s1 hip hne
        have hip1 : s1.in_progress_simplex = none := by rw [hs1]; exact hip
        have hcs1 : s1.current_simplex = some sx2 := by rw [hs1]
        have hb1 : s1.best_point = s.best_point := by rw [hs1]
        rw [nwv_pending_eq ev v s1 sx2 hip1 hcs1] at h
        obtain ⟨cd, _, _, _, _, _, _, _, hor, _⟩ :=
          report_on_simplex_shape ev v sx2 s1 r s2 h
        rcases hor with ⟨hlt, hbest, _⟩ | ⟨_, _, _, hbest⟩ | ⟨_, _, hbest, _⟩
        · rw [hbest]
          exact le_of_lt (hb1 ▸ hlt)
        · rw [hbest, hb1]
        · rw [hbest, hb1]
    · rw [nwv_pending_eq ev v s sx hip hcs] at h
      obtain ⟨cd, _, _, _, _, _, _, _, hor, _⟩ :=
        report_on_simplex_shape ev v sx s r s2 h
      rcases hor with ⟨hlt, hbest, _⟩ | ⟨_, _, _, hbest⟩ | ⟨_, _, hbest, _⟩
      · rw [hbest]; exact le_of_lt hlt
      · rw [hbest]
      · rw [hbest]
  · intro dim sx hip hlt
    rw [nwv_bootstrap_eq ev v s (dim, sx) hip,
      step_eq_of_some s v dim sx hip] at h
    rcases hcg : sx.corners.get? dim with _ | c
    · rw [hcg] at h; simp at h
    · simp only [hcg, List.length_set] at h
      rw [if_pos hlt] at h
      rcases hcg2 : (sx.corners.set dim ⟨c.coordinates, v⟩).get? (dim + 1)
          with _ | c2
      · rw [List.get?_eq_none] at hcg2
        rw [List.length_set] at hcg2
        omega
      · simp only [hcg2, Option.map_some', Option.some.injEq,
          Prod.mk.injEq] at h
        obtain ⟨_, hs⟩ := h
        subst hs
        rfl

/-- Witness for C5's amended theorem at a concrete steady-state report. -/
theorem c5_best_monotone_w :
    Optimizer.next_with_value evZero stateS 2 = some (((-3 : ℚ), [2]), stateS2)
    ∧ stateS.best_point.value ≤ stateS2.best_point.value :=
  ⟨by with_unfolding_all rfl,
   (c5_best_monotone evZero stateS 2 ((-3 : ℚ), [2]) stateS2
       (by with_unfolding_all rfl)).1 rfl⟩

/-- C8: when the value of the last corner is reported during bootstrap
(pointer at `dim` with `dim + 1` corners), finalization runs: the call
returns the internal best pair, the bootstrap state is cleared, the fully
evaluated initial simplex (with the updated corner) is appended to the queue
with priority 0, `best_point` becomes a corner of maximal value and
`min_value` the minimal corner value. -/
theorem c8_finalize (ev : Simplex → ℚ → ℚ) (s : Optimizer) (v : ℚ)
    (dim : ℕ) (sx : Simplex) (c : Point)
    (hip : s.in_progress_simplex = some (dim, sx))
    (hcg : sx.corners.get? dim = some c)
    (hlast : dim + 1 = sx.corners.length) :
    (s.next_with_value ev v).isSome = true
    ∧ ∀ r s2, s.next_with_value ev v = some (r, s2) →
        r = (s2.best_point.value, s2.best_point.coordinates)
        ∧ s2.in_progress_simplex = none
        ∧ s2.queue = s.queue ++
            [({ sx with corners := sx.corners.set dim ⟨c.coordinates, v⟩ }, 0)]
        ∧ s2.best_point ∈ sx.corners.set dim ⟨c.coordinates, v⟩
        ∧ (∀ p ∈ sx.corners.set dim ⟨c.coordinates, v⟩,
            p.value ≤ s2.best_point.value)
        ∧ s2.min_value ∈ (sx.corners.set dim ⟨c.coordinates, v⟩).map Point.value
        ∧ (∀ p ∈ sx.corners.set dim ⟨c.coordinates, v⟩,
            s2.min_value ≤ p.value) := by
  have hne2 : sx.corners.set dim ⟨c.coordinates, v⟩ ≠ [] := by
    have hl : (sx.corners.set dim ⟨c.coordinates, v⟩).length = sx.corners.length :=
      List.length_set sx.corners dim ⟨c.coordinates, v⟩
    intro hcon
    rw [hcon] at hl
    simp at hl
    omega
  obtain ⟨bp, hbp, hbmem, hball⟩ :=
    maxByValue_spec (sx.corners.set dim ⟨c.coordinates, v⟩) hne2
  obtain ⟨mv, hmv, hmmem, hmall⟩ :=
    minByValue_spec (sx.corners.set dim ⟨c.coordinates, v⟩) hne2
  have hstep : s.next_with_value ev v
      = some ((bp.value, bp.coordinates),
          { s with
            queue := s.queue ++
              [({ sx with corners := sx.corners.set dim ⟨c.coordinates, v⟩ }, 0)]
            min_value := mv.value
            best_point := bp
            in_progress_simplex := none }) := by
    rw [nwv_bootstrap_eq ev v s (dim, sx) hip,
      step_eq_of_some s v dim sx hip]
    simp only [hcg, List.length_set]
    rw [if_neg (by omega)]
    rw [finalize_eq_of_some _ (dim + 1)
      { sx with corners := sx.corners.set dim ⟨c.coordinates, v⟩ } rfl]
    simp only [hbp, hmv, Option.map_some']
  constructor
  · rw [hstep]; rfl
  · intro r s2 hrs
    rw [hstep] at hrs
    simp only [Option.some.injEq, Prod.mk.injEq] at hrs
    obtain ⟨hr, hs⟩ := hrs
    subst hs
    exact ⟨hr.symm, rfl, rfl, hbmem, hball,
      List.mem_map_of_mem Point.value hmmem, hmall⟩

/-- Witness for C8 at a concrete bootstrap state about to finalize. -/
theorem c8_finalize_w :
    (Optimizer.next_with_value evZero stateB 7).isSome = true
    ∧ ((7 : ℚ), ([1] : List ℚ))
        = (stateB2.best_point.value, stateB2.best_point.coordinates)
    ∧ stateB2.in_progress_simplex = none
    ∧ stateB2.queue = stateB.queue ++ [(⟨[⟨[0], 5⟩, ⟨[1], 7⟩], [1/2], 0⟩, 0)]
    ∧ stateB2.best_point ∈ [(⟨[0], 5⟩ : Point), ⟨[1], 7⟩] := by
  have h := c8_finalize evZero stateB 7 1 ⟨[⟨[0], 5⟩, ⟨[1], 0⟩], [1/2], 0⟩
    ⟨[1], 0⟩ rfl rfl rfl
  have h2 := h.2 ((7 : ℚ), [1]) stateB2 (by with_unfolding_all rfl)
  exact ⟨h.1, h2.1, h2.2.1, h2.2.2.1, h2.2.2.2.1⟩

/-- C10: (establishment) whenever a bootstrap-phase `next_with_value` call
clears the bootstrap state — i.e. finalization runs — the invariant
`min_value ≤ best_point.value` holds afterwards; (preservation) every
steady-state call preserves the invariant and updates at most one tracker:
`best_point` exactly when the reported value strictly exceeds the current
best, otherwise `min_value` exactly when it is strictly below the current
minimum, otherwise neither. -/
theorem c10_trackers (ev : Simplex → ℚ → ℚ) (s : Optimizer) (v : ℚ)
    (r : ℚ × List ℚ) (s2 : Optimizer)
    (h : s.next_with_value ev v = some (r, s2)) :
    (s.in_progress_simplex = none → s.min_value ≤ s.best_point.value →
       s2.min_value ≤ s2.best_point.value
       ∧ ((s.best_point.value < v ∧ s2.best_point.value = v
             ∧ s2.min_value = s.min_value)
          ∨ (¬ s.best_point.value < v ∧ v < s.min_value
             ∧ s2.min_value = v ∧ s2.best_point = s.best_point)
          ∨ (¬ s.best_point.value < v ∧ ¬ v < s.min_value
             ∧ s2.best_point = s.best_point ∧ s2.min_value = s.min_value)))
    ∧ (∀ p, s.in_progress_simplex = some p →
        s2.in_progress_simplex = none →
        s2.min_value ≤ s2.best_point.value) := by
  constructor
  · intro hip hinv
    rcases hcs : s.current_simplex with _ | sx
    · rw [nwv_materialize_eq ev v s hip hcs] at h
      rcases hne : s.next_explore_point ev with _ | ⟨c, s1⟩
      · rw [hne] at h; simp at h
      · rw [hne] at h
        simp only [Option.some_bind] at h
        obtain ⟨sx2, q2, hs1, _⟩ := next_explore_point_shape ev s c s1 hip hne
        have hip1 : s1.in_progress_simplex = none := by rw [hs1]; exact hip
        have hcs1 : s1.current_simplex = some sx2 := by rw [hs1]
        have hb1 : s1.best_point = s.best_point := by rw [hs1]
        have hm1 : s1.min_value = s.min_value := by rw [hs1]
        rw [nwv_pending_eq ev v s1 sx2 hip1 hcs1] at h
        obtain ⟨cd, _, _, _, _, _, _, _, hor, _⟩ :=
          report_on_simplex_shape ev v sx2 s1 r s2 h
        rw [hb1, hm1] at hor
        rcases hor with ⟨hlt, hbest, hmin⟩ | ⟨hnlt, hvlt, hmin, hbest⟩
            | ⟨hnlt, hnvlt, hbest, hmin⟩
        · refine ⟨?_, Or.inl ⟨hlt, by rw [hbest], hmin⟩⟩
          rw [hbest, hmin]
          exact le_of_lt (lt_of_le_of_lt hinv hlt)
        · refine ⟨?_, Or.inr (Or.inl ⟨hnlt, hvlt, hmin, hbest⟩)⟩
          rw [hbest, hmin]
          exact le_of_lt (lt_of_lt_of_le hvlt hinv)
        · refine ⟨?_, Or.inr (Or.inr ⟨hnlt, hnvlt, hbest, hmin⟩)⟩
          rw [hbest, hmin]
          exact hinv
    · rw [nwv_pending_eq ev v s sx hip hcs] at h
      obtain ⟨cd, _, _, _, _, _, _, _, hor, _⟩ :=
        report_on_simplex_shape ev v sx s r s2 h
      rcases hor with ⟨hlt, hbest, hmin⟩ | ⟨hnlt, hvlt, hmin, hbest⟩
          | ⟨hnlt, hnvlt, hbest, hmin⟩
      · refine ⟨?_, Or.inl ⟨hlt, by rw [hbest], hmin⟩⟩
        rw [hbest, hmin]
        exact le_of_lt (lt_of_le_of_lt hinv hlt)
      · refine ⟨?_, Or.inr (Or.inl ⟨hnlt, hvlt, hmin, hbest⟩)⟩
        rw [hbest, hmin]
        exact le_of_lt (lt_of_lt_of_le hvlt hinv)
      · refine ⟨?_, Or.inr (Or.inr ⟨hnlt, hnvlt, hbest, hmin⟩)⟩
        rw [hbest, hmin]
        exact hinv
  · intro p hip hnone
    obtain ⟨dim, sx⟩ := p
    rw [nwv_bootstrap_eq ev v s (dim, sx) hip,
      step_eq_of_some s v dim sx hip] at h
    rcases hcg : sx.corners.get? dim with _ | c
    · rw [hcg] at h; simp at h
    · simp only [hcg, List.length_set] at h
      by_cases hcond : dim + 1 < sx.corners.length
      · rw [if_pos hcond] at h
        rcases hcg2 : (sx.corners.set dim ⟨c.coordinates, v⟩).get? (dim + 1)
            with _ | c2
        · rw [List.get?_eq_none] at hcg2
          rw [List.length_set] at hcg2
          omega
        · simp only [hcg2, Option.map_some', Option.some.injEq,
            Prod.mk.injEq] at h
          obtain ⟨_, hs⟩ := h
          rw [← hs] at hnone
          simp at hnone
      · rw [if_neg hcond] at h
        rw [finalize_eq_of_some _ (dim + 1)
          { sx with corners := sx.corners.set dim ⟨c.coordinates, v⟩ } rfl] at h
        rcases hbp : maxByValue (sx.corners.set dim ⟨c.coordinates, v⟩)
            with _ | bp
        · simp [hbp] at h
        · rcases hmv : minByValue (sx.corners.set dim ⟨c.coordinates, v⟩)
              with _ | mv
          · simp [hbp, hmv] at h
          · simp only [hbp, hmv, Option.map_some', Option.some.injEq,
              Prod.mk.injEq] at h
            obtain ⟨_, hs⟩ := h
            subst hs
            have hne2 : sx.corners.set dim ⟨c.coordinates, v⟩ ≠ [] := by
              intro hcon
              rw [hcon] at hbp
              simp [maxByValue] at hbp
            obtain ⟨bp2, hbp2, hbmem2, _⟩ :=
              maxByValue_spec (sx.corners.set dim ⟨c.coordinates, v⟩) hne2
            obtain ⟨mv2, hmv2, _, hmall2⟩ :=
              minByValue_spec (sx.corners.set dim ⟨c.coordinates, v⟩) hne2
            rw [hbp] at hbp2
            rw [hmv] at hmv2
            have hbpe : bp2 = bp := by
              injection hbp2 with hh; exact hh.symm
            have hmve : mv2 = mv := by
              injection hmv2 with hh; exact hh.symm
            subst hbpe
            subst hmve
            exact hmall2 bp2 hbmem2

/-- Witness for C10 at a concrete steady-state report (neither tracker is
updated: the value 2 neither exceeds the best 3 nor undershoots the
minimum 0). -/
theorem c10_trackers_w :
    Optimizer.next_with_value evZero stateS 2 = some (((-3 : ℚ), [2]), stateS2)
    ∧ stateS2.min_value ≤ stateS2.best_point.value
    ∧ stateS2.best_point = stateS.best_point
    ∧ stateS2.min_value = stateS.min_value := by
  have he : Optimizer.next_with_value evZero stateS 2
      = some (((-3 : ℚ), [2]), stateS2) := by with_unfolding_all rfl
  have h := (c10_trackers evZero stateS 2 ((-3 : ℚ), [2]) stateS2 he).1 rfl
    (by with_unfolding_all decide)
  refine ⟨he, h.1, ?_⟩
  rcases h.2 with ⟨hlt, _⟩ | ⟨_, hlt, _⟩ | ⟨_, _, hb, hm⟩
  · exact absurd hlt (by with_unfolding_all decide)
  · exact absurd hlt (by with_unfolding_all decide)
  · exact ⟨hb, hm⟩

/-! ## Lemmas about the initial simplex corners, for C7 -/

theorem cornerCoords_get? (d i t : ℕ) (ht : t < d) :
    (cornerCoords d i).get? t = some (if i = t + 1 then 1 else 0) := by
  unfold cornerCoords
  rw [List.get?_map, List.get?_range ht]
  rfl

theorem cornerCoords_injOn (d : ℕ) :
    ∀ i, i < d + 1 → ∀ j, j < d + 1 → cornerCoords d i = cornerCoords d j → i = j := by
  intro i hi j hj heq
  rcases i with _ | i2 <;> rcases j with _ | j2
  · rfl
  · exfalso
    have h1 := cornerCoords_get? d 0 j2 (by omega)
    have h2 := cornerCoords_get? d (j2 + 1) j2 (by omega)
    rw [heq, h2] at h1
    have hne : (0 : ℕ) ≠ j2 + 1 := by omega
    simp [hne] at h1
  · exfalso
    have h1 := cornerCoords_get? d (i2 + 1) i2 (by omega)
    have h2 := cornerCoords_get? d 0 i2 (by omega)
    rw [heq, h2] at h1
    have hne : (0 : ℕ) ≠ i2 + 1 := by omega
    simp [hne] at h1
  · by_cases hij : i2 = j2
    · rw [hij]
    · exfalso
      have h1 := cornerCoords_get? d (i2 + 1) i2 (by omega)
      have h2 := cornerCoords_get? d (j2 + 1) i2 (by omega)
      rw [heq, h2] at h1
      have hne : j2 + 1 ≠ i2 + 1 := by omega
      simp [hne] at h1

theorem map_coords_set (l : List Point) (i : ℕ) (c : Point) (v : ℚ)
    (hc : l.get? i = some c) :
    (l.set i ⟨c.coordinates, v⟩).map Point.coordinates = l.map Point.coordinates := by
  refine List.ext_get?_iff.mpr fun n => ?_
  rw [List.get?_map, List.get?_map]
  rcases eq_or_ne i n with rfl | hne
  · have hi : i < l.length := by
      by_contra hcon
      rw [List.get?_eq_none.mpr (by omega)] at hc
      exact Option.noConfusion hc
    rw [List.get?_set_eq_of_lt _ hi, hc]
    rfl
  · rw [List.get?_set_ne _ _ hne]

/-- One corner-by-corner run of the bootstrap: from a bootstrap state whose
pointer is at `k`, running alternate suggest/report calls for the values
`vs` yields exactly the coordinates of corners `k, k+1, ...` in order; if the
values exhaust the corners the bootstrap state is cleared, otherwise the
pointer advances and the corner coordinates are unchanged. -/
theorem bootstrapRun_spec (ev : Simplex → ℚ → ℚ) :
    ∀ (vs : List ℚ) (s : Optimizer) (k : ℕ) (sx : Simplex),
    s.in_progress_simplex = some (k, sx) →
    k + vs.length ≤ sx.corners.length →
    ∃ sf, bootstrapRun ev s vs
        = some ((((sx.corners.map Point.coordinates).drop k).take vs.length), sf)
      ∧ (vs ≠ [] → k + vs.length = sx.corners.length →
          sf.in_progress_simplex = none)
      ∧ (k + vs.length < sx.corners.length →
          ∃ sxf, sf.in_progress_simplex = some (k + vs.length, sxf)
            ∧ sxf.corners.map Point.coordinates
                = sx.corners.map Point.coordinates) := by
  intro vs
  induction vs with
  | nil =>
    intro s k sx hip hlen
    refine ⟨s, by simp [bootstrapRun], by simp, ?_⟩
    intro hlt
    exact ⟨sx, by simpa using hip, rfl⟩
  | cons v vs2 ih =>
    intro s k sx hip hlen
    have hvl : (v :: vs2).length = vs2.length + 1 := rfl
    have hk : k < sx.corners.length := by
      rw [hvl] at hlen; omega
    obtain ⟨c, hc⟩ : ∃ c, sx.corners.get? k = some c := by
      rcases hcg : sx.corners.get? k with _ | c
      · rw [List.get?_eq_none] at hcg; omega
      · exact ⟨c, rfl⟩
    have hsug : s.next_explore_point ev = some (c.coordinates, s) := by
      simp only [Optimizer.next_explore_point, hip, hc]
    have hkM : k < (sx.corners.map Point.coordinates).length := by
      rw [List.length_map]; exact hk
    have hMk : (sx.corners.map Point.coordinates)[k] = c.coordinates := by
      have hg : (sx.corners.map Point.coordinates).get? k = some c.coordinates := by
        rw [List.get?_map, hc]; rfl
      rw [List.get?_eq_getElem?, List.getElem?_eq_getElem hkM] at hg
      exact Option.some.inj hg
    have hsugs : ((sx.corners.map Point.coordinates).drop k).take (vs2.length + 1)
        = c.coordinates
          :: ((sx.corners.map Point.coordinates).drop (k + 1)).take vs2.length := by
      rw [List.drop_eq_getElem_cons hkM, List.take_succ_cons, hMk]
    by_cases hcond : k + 1 < sx.corners.length
    · -- not the last corner: the pointer advances
      obtain ⟨c2, hc2⟩ : ∃ c2,
          (sx.corners.set k ⟨c.coordinates, v⟩).get? (k + 1) = some c2 := by
        rcases hcg2 : (sx.corners.set k ⟨c.coordinates, v⟩).get? (k + 1) with _ | c2
        · rw [List.get?_eq_none, List.length_set] at hcg2; omega
        · exact ⟨c2, rfl⟩
      have hstep : s.step_in_progress_simplex v
          = some (some c2.coordinates,
              { s with in_progress_simplex := some (k + 1, { sx with corners := sx.corners.set k ⟨c.coordinates, v⟩ }) }) := by
        rw [step_eq_of_some s v k sx hip]
        simp only [hc, List.length_set]
        rw [if_pos hcond]
        simp only [hc2]
      have hnwv : s.next_with_value ev v
          = some ((s.best_point.value, s.best_point.coordinates),
              { s with in_progress_simplex := some (k + 1, { sx with corners := sx.corners.set k ⟨c.coordinates, v⟩ }) }) := by
        rw [nwv_bootstrap_eq ev v s (k, sx) hip, hstep]
        rfl
      obtain ⟨sf, hrun2, hfin2, hcont2⟩ := ih
        { s with in_progress_simplex := some (k + 1, { sx with corners := sx.corners.set k ⟨c.coordinates, v⟩ }) }
        (k + 1) { sx with corners := sx.corners.set k ⟨c.coordinates, v⟩ }
        rfl (by simp only [List.length_set]; rw [hvl] at hlen; omega)
      have hmc : ({ sx with corners := sx.corners.set k ⟨c.coordinates, v⟩ }
            : Simplex).corners.map Point.coordinates
          = sx.corners.map Point.coordinates :=
        map_coords_set sx.corners k c v hc
      refine ⟨sf, ?_, ?_, ?_⟩
      · simp only [bootstrapRun, hsug, Option.some_bind, hnwv, hrun2,
          Option.map_some']
        rw [hmc, hvl, hsugs]
      · intro _ hfull
        refine hfin2 ?_ ?_
        · intro hcon
          rw [hcon] at hfull
          simp at hfull
          omega
        · simp only [List.length_set]
          rw [hvl] at hfull
          omega
      · intro hlt
        rw [hvl] at hlt
        obtain ⟨sxf, hf1, hf2⟩ := hcont2 (by simp only [List.length_set]; omega)
        have hkk : k + 1 + vs2.length = k + (v :: vs2).length := by
          rw [hvl]; omega
        rw [hkk] at hf1
        exact ⟨sxf, hf1, by rw [hf2, hmc]⟩
    · -- the last corner: finalize
      have hkl : k + 1 = sx.corners.length := by omega
      have hvs2 : vs2 = [] := by
        rw [hvl] at hlen
        have : vs2.length = 0 := by omega
        exact List.length_eq_zero.mp this
      have hne2 : sx.corners.set k ⟨c.coordinates, v⟩ ≠ [] := by
        intro hcon
        have := List.length_set sx.corners k ⟨c.coordinates, v⟩
        rw [hcon] at this
        simp at this
        omega
      obtain ⟨bp, hbp, _, _⟩ :=
        maxByValue_spec (sx.corners.set k ⟨c.coordinates, v⟩) hne2
      obtain ⟨mv, hmv, _, _⟩ :=
        minByValue_spec (sx.corners.set k ⟨c.coordinates, v⟩) hne2
      have hstep : s.step_in_progress_simplex v
          = some (none,
              { s with
                queue := s.queue ++
                  [({ sx with corners := sx.corners.set k ⟨c.coordinates, v⟩ }, 0)]
                min_value := mv.value
                best_point := bp
                in_progress_simplex := none }) := by
        rw [step_eq_of_some s v k sx hip]
        simp only [hc, List.length_set]
        rw [if_neg (by omega)]
        rw [finalize_eq_of_some _ (k + 1)
          { sx with corners := sx.corners.set k ⟨c.coordinates, v⟩ } rfl]
        simp only [hbp, hmv, Option.map_some']
      have hnwv : s.next_with_value ev v
          = some ((bp.value, bp.coordinates),
              { s with
                queue := s.queue ++
                  [({ sx with corners := sx.corners.set k ⟨c.coordinates, v⟩ }, 0)]
                min_value := mv.value
                best_point := bp
                in_progress_simplex := none }) := by
        rw [nwv_bootstrap_eq ev v s (k, sx) hip, hstep]
        rfl
      refine ⟨{ s with
                queue := s.queue ++
                  [({ sx with corners := sx.corners.set k ⟨c.coordinates, v⟩ }, 0)]
                min_value := mv.value
                best_point := bp
                in_progress_simplex := none }, ?_, fun _ _ => rfl, ?_⟩
      · subst hvs2
        have hsugs1 : ((sx.corners.map Point.coordinates).drop k).take 1
            = [c.coordinates] := by simpa using hsugs
        simp only [bootstrapRun, hsug, Option.some_bind, hnwv,
          Option.map_some']
        rw [show ((v : ℚ) :: ([] : List ℚ)).length = 1 from rfl, hsugs1]
      · intro hlt
        rw [hvl] at hlt
        omega

/-- C7: for a d-dimensional domain, alternating suggest/report d+1 times
from a fresh optimizer issues exactly the d+1 corners of the initial simplex
as suggestions, in corner-index order starting from index 0; the corner
coordinate vectors are pairwise distinct; the bootstrap state is cleared
exactly after the (d+1)-st report — any shorter run of reports leaves the
optimizer in the bootstrap phase. -/
theorem c7_bootstrap_corners (ev : Simplex → ℚ → ℚ) (bounds : List (ℚ × ℚ))
    (mini : Bool) :
    (∀ vs : List ℚ, vs.length = bounds.length + 1 →
      ∃ sf, bootstrapRun ev (Optimizer.new bounds mini) vs
          = some ((Simplex.initial_simplex ⟨bounds⟩).corners.map Point.coordinates, sf)
        ∧ sf.in_progress_simplex = none)
    ∧ ((Simplex.initial_simplex ⟨bounds⟩).corners.map Point.coordinates).Nodup
    ∧ (∀ vs : List ℚ, vs.length ≤ bounds.length →
        ∃ cs sf, bootstrapRun ev (Optimizer.new bounds mini) vs = some (cs, sf)
          ∧ sf.in_progress_simplex.isSome = true) := by
  have hclen : (Simplex.initial_simplex ⟨bounds⟩).corners.length
      = bounds.length + 1 := by
    simp [Simplex.initial_simplex]
  have hMlen : ((Simplex.initial_simplex ⟨bounds⟩).corners.map
      Point.coordinates).length = bounds.length + 1 := by
    rw [List.length_map, hclen]
  refine ⟨?_, ?_, ?_⟩
  · intro vs hvs
    obtain ⟨sf, hrun, hfin, _⟩ := bootstrapRun_spec ev vs
      (Optimizer.new bounds mini) 0 (Simplex.initial_simplex ⟨bounds⟩)
      rfl (by rw [hclen, hvs]; omega)
    refine ⟨sf, ?_, ?_⟩
    · rw [hrun]
      rw [List.drop_zero, hvs, ← hMlen, List.take_length]
    · refine hfin ?_ ?_
      · intro hcon
        rw [hcon] at hvs
        simp at hvs
      · rw [hclen, hvs]
        omega
  · have hmm : (Simplex.initial_simplex ⟨bounds⟩).corners.map Point.coordinates
        = (List.range (bounds.length + 1)).map (fun i => cornerCoords bounds.length i) := by
      simp [Simplex.initial_simplex, List.map_map]
    rw [hmm]
    refine List.Nodup.map_on ?_ (List.nodup_range _)
    intro x hx y hy hf
    rw [List.mem_range] at hx hy
    exact cornerCoords_injOn bounds.length x hx y hy hf
  · intro vs hvs
    obtain ⟨sf, hrun, _, hcont⟩ := bootstrapRun_spec ev vs
      (Optimizer.new bounds mini) 0 (Simplex.initial_simplex ⟨bounds⟩)
      rfl (by rw [hclen]; omega)
    obtain ⟨sxf, hf1, _⟩ := hcont (by rw [hclen]; omega)
    exact ⟨_, sf, hrun, by rw [hf1]; rfl⟩

/-- Witness for C7 on a concrete 1-dimensional domain with two reports. -/
theorem c7_bootstrap_corners_w :
    (bootstrapRun evZero (Optimizer.new [(0, 1)] false) [5, 7]).map Prod.fst
      = some ((Simplex.initial_simplex ⟨[(0, 1)]⟩).corners.map Point.coordinates)
    ∧ ((Simplex.initial_simplex ⟨[(0, 1)]⟩).corners.map Point.coordinates).Nodup := by
  obtain ⟨sf, h1, _⟩ := (c7_bootstrap_corners evZero [(0, 1)] false).1 [5, 7] rfl
  exact ⟨by rw [h1]; rfl, (c7_bootstrap_corners evZero [(0, 1)] false).2.1⟩

end Simplers
